import Mathlib

/-!
Verification of the numeric core of `src/smdiv/dsp_basics/illustration_low_pass.ipynb`.

The notebook builds one pipeline: generate random bits, modulate them with
Non-Return-to-Zero (zero-order hold), compute the sampled impulse response of an
RC low-pass element, convolve the modulated signal with that response and
normalize the result to unit peak magnitude.

The embedding below models the numeric semantics over exact fields (`ℚ`/`ℝ` or a
general linear ordered field): sequences are `List`s, a numpy array division by a
scalar is elementwise, with a non-finite float outcome (0/0 → NaN, x/0 → ±inf)
represented as `none`.
-/

namespace LowPass

/-- Source `nrz( binary_data, samples_per_bit ) = np.repeat( binary_data, samples_per_bit )`:
every element of `binary_data` is repeated `samples_per_bit` times contiguously, in order. -/
def nrz {α : Type} (binary_data : List α) (samples_per_bit : ℕ) : List α :=
  binary_data.flatMap (fun b => List.replicate samples_per_bit b)

/-- Source `signal.convolve( nrz_signal, impulse_response_rc )` (full mode, the default):
the linear discrete convolution y[n] = Σ_k h[k] · x[n−k] for 0 ≤ n < len x + len h − 1,
where indices outside a sequence contribute 0. The library raises ValueError when either
input is empty; the embedding is therefore only used on nonempty inputs — every theorem
below either hypothesizes nonemptiness or has a hypothesis that already fails on an
empty input. -/
def convolve {α : Type} [LinearOrderedField α] (x h : List α) : List α :=
  (List.range (x.length + h.length - 1)).map (fun n =>
    ((List.range (n + 1)).map (fun k => h.getD k 0 * x.getD (n - k) 0)).sum)

/-- Source `np.max( np.abs( convolved ) )`: the largest absolute value of the sequence
(0 for the empty sequence; numpy raises on an empty input, which no theorem below uses). -/
def maxAbs {α : Type} [LinearOrderedField α] (y : List α) : α :=
  (y.map (fun v => |v|)).foldr max 0

/-- Numpy elementwise float division by a scalar: a finite quotient is `some`; a zero
divisor gives a non-finite value (0/0 → NaN, x/0 → ±inf), represented as `none`.
Numpy emits a runtime warning in that case but raises no exception. -/
def npDiv {α : Type} [LinearOrderedField α] (a b : α) : Option α :=
  if b = 0 then none else some (a / b)

/-- Source lines in `plot_convol`:
`convolved = signal.convolve( nrz_signal, impulse_response_rc )` followed by
`convolved = convolved / np.max( np.abs( convolved ) )`. -/
def convolve_and_normalize {α : Type} [LinearOrderedField α] (x h : List α) :
    List (Option α) :=
  let y := convolve x h
  y.map (fun v => npDiv v (maxAbs y))

/-- Source `np.arange( start, stop, step )` over exact rationals: the values
start + i * step for 0 ≤ i < ⌈(stop − start) / step⌉. -/
def arange (start stop step : ℚ) : List ℚ :=
  (List.range ((⌈(stop - start) / step⌉ : ℤ)).toNat).map
    (fun i : ℕ => start + (i : ℚ) * step)

/-- Source `time = np.arange( 0, bit_length, step = 1/samples_per_bit )`. -/
def time (bit_length samples_per_bit : ℕ) : List ℚ :=
  arange 0 bit_length (1 / samples_per_bit)

/-- Source `binary_data = np.random.randint( low=2, size = bit_length )`: `bit_length`
independent draws from 0 and 1. The random source is abstracted as `rnd`; one draw is
`rnd i % 2`. Numpy returns an empty array for size 0 and raises `ValueError` for a
negative size; no `InvalidParameter` validation exists in the source. -/
def generate_bits (rnd : ℕ → ℕ) (bit_length : ℤ) : Except String (List ℕ) :=
  if bit_length < 0 then Except.error "ValueError: negative dimensions are not allowed"
  else Except.ok ((List.range bit_length.toNat).map (fun i => rnd i % 2))

/-- Source `rc_impulse_response( time_constant, time )`: it builds
`signal.TransferFunction( [1], [time_constant, 1] )` and returns
`signal.impulse( rc_element, T = time )`. For time_constant ≠ 0 the solver delegates to
lsim, which reads T[0]: an empty grid raises IndexError, and a grid whose first point is
negative raises ValueError (initial time must be nonnegative). On a nonempty grid
starting at a non-negative time it samples the impulse response of
G(s) = 1 / (1 + τ·s), namely h(t) = (1/τ) · exp(−t/τ), at exactly the given grid and
returns the time vector alongside; a negative time constant raises no error (the system
is merely unstable). For time_constant = 0 the denominator [0, 1] is degenerate and the
library solver's behavior is not modelled. `none` marks every path that does not return
normally (the two library exceptions and the unmodelled degenerate case); the source
contains no parameter validation of its own. -/
noncomputable def rc_impulse_response (time_constant : ℝ) (grid : List ℝ) :
    Option (List ℝ × List ℝ) :=
  if time_constant = 0 then none
  else if grid.isEmpty then none
  else if grid.headD 0 < 0 then none
  else some (grid, grid.map (fun t => (1 / time_constant) * Real.exp (-t / time_constant)))

/-! ### Helper lemmas about `nrz` -/

theorem nrz_nil {α : Type} (S : ℕ) : nrz ([] : List α) S = [] := rfl

theorem nrz_cons {α : Type} (b : α) (bs : List α) (S : ℕ) :
    nrz (b :: bs) S = List.replicate S b ++ nrz bs S := by
  simp [nrz]

theorem nrz_length {α : Type} (bits : List α) (S : ℕ) :
    (nrz bits S).length = bits.length * S := by
  induction bits with
  | nil => simp [nrz_nil]
  | cons b bs ih =>
    rw [nrz_cons, List.length_append, List.length_replicate, ih, List.length_cons]
    ring

theorem nrz_getD {α : Type} (bits : List α) (S : ℕ) (hS : 0 < S) (i : ℕ) (d : α)
    (hi : i < bits.length * S) :
    (nrz bits S).getD i d = bits.getD (i / S) d := by
  induction bits generalizing i with
  | nil => simp at hi
  | cons b bs ih =>
    rw [nrz_cons]
    by_cases h : i < S
    · rw [List.getD_append _ _ _ _ (by simpa using h), Nat.div_eq_of_lt h]
      simp [List.getD, List.getElem?_replicate, h]
    · push_neg at h
      rw [List.getD_append_right _ _ _ _ (by simpa using h)]
      simp only [List.length_replicate]
      have hi' : i - S < bs.length * S := by
        rw [List.length_cons, Nat.add_mul, one_mul] at hi
        omega
      rw [ih _ hi']
      have hdiv : i / S = (i - S) / S + 1 := by
        have h1 : i - S + S = i := Nat.sub_add_cancel h
        calc i / S = (i - S + S) / S := by rw [h1]
          _ = (i - S) / S + 1 := Nat.add_div_right _ hS
      rw [hdiv, List.getD_cons_succ]

/-- C1: for every bit sequence of length N and every positive S, `nrz` returns a
sequence of length N·S in which each input element is repeated contiguously S times
in order: output[i] = bits[i / S] for every i < N·S; in particular bits = [1,0,1,1]
with S = 2 yields [1,1,0,0,1,1,1,1]. -/
theorem c1_modulate_nrz {α : Type} (bits : List α) (S : ℕ) (hS : 0 < S) :
    (nrz bits S).length = bits.length * S
    ∧ (∀ i d, i < bits.length * S → (nrz bits S).getD i d = bits.getD (i / S) d)
    ∧ nrz ([1, 0, 1, 1] : List ℕ) 2 = [1, 1, 0, 0, 1, 1, 1, 1] := by
  refine ⟨nrz_length bits S, fun i d hi => nrz_getD bits S hS i d hi, by decide⟩

/-- Witness for C1 at bits = [1,0,1,1], S = 2. -/
theorem c1_modulate_nrz_witness :
    0 < 2
    ∧ ((nrz ([1, 0, 1, 1] : List ℕ) 2).length = [1, 0, 1, 1].length * 2
      ∧ (∀ i d, i < ([1, 0, 1, 1] : List ℕ).length * 2 →
          (nrz ([1, 0, 1, 1] : List ℕ) 2).getD i d = [1, 0, 1, 1].getD (i / 2) d)
      ∧ nrz ([1, 0, 1, 1] : List ℕ) 2 = [1, 1, 0, 0, 1, 1, 1, 1]) :=
  ⟨by decide, c1_modulate_nrz ([1, 0, 1, 1] : List ℕ) 2 (by decide)⟩

/-- C10: for every positive S, `nrz` distributes over concatenation, and `nrz` of the
empty sequence is the empty sequence. -/
theorem c10_nrz_append {α : Type} (S : ℕ) (_hS : 0 < S) (b1 b2 : List α) :
    nrz (b1 ++ b2) S = nrz b1 S ++ nrz b2 S ∧ nrz ([] : List α) S = [] := by
  exact ⟨by simp [nrz, List.flatMap_append], rfl⟩

/-- Witness for C10 at S = 2, b1 = [1], b2 = [0]. -/
theorem c10_nrz_append_witness :
    0 < 2
    ∧ (nrz (([1] : List ℕ) ++ [0]) 2 = nrz ([1] : List ℕ) 2 ++ nrz ([0] : List ℕ) 2
      ∧ nrz ([] : List ℕ) 2 = []) :=
  ⟨by decide, c10_nrz_append 2 (by decide) [1] [0]⟩

/-! ### Helper lemmas about `convolve`, `maxAbs` and `convolve_and_normalize` -/

theorem convolve_length {α : Type} [LinearOrderedField α] (x h : List α) :
    (convolve x h).length = x.length + h.length - 1 := by
  simp [convolve]

theorem maxAbs_nil {α : Type} [LinearOrderedField α] : maxAbs ([] : List α) = 0 := rfl

theorem maxAbs_cons {α : Type} [LinearOrderedField α] (a : α) (l : List α) :
    maxAbs (a :: l) = max |a| (maxAbs l) := rfl

theorem maxAbs_nonneg {α : Type} [LinearOrderedField α] (y : List α) : 0 ≤ maxAbs y := by
  induction y with
  | nil => simp [maxAbs_nil]
  | cons a l ih => rw [maxAbs_cons]; exact le_max_of_le_right ih

theorem abs_le_maxAbs {α : Type} [LinearOrderedField α] (y : List α) (v : α) (hv : v ∈ y) :
    |v| ≤ maxAbs y := by
  induction y with
  | nil => simp at hv
  | cons a l ih =>
    rw [maxAbs_cons]
    rcases List.mem_cons.mp hv with rfl | hv'
    · exact le_max_left _ _
    · exact le_max_of_le_right (ih hv')

theorem maxAbs_pos {α : Type} [LinearOrderedField α] (y : List α)
    (hne : ∃ v ∈ y, v ≠ 0) : 0 < maxAbs y := by
  obtain ⟨v, hv, hv0⟩ := hne
  exact lt_of_lt_of_le (abs_pos.mpr hv0) (abs_le_maxAbs y v hv)

theorem maxAbs_map_div {α : Type} [LinearOrderedField α] (y : List α) (m : α)
    (hm : 0 < m) : maxAbs (y.map (fun v => v / m)) = maxAbs y / m := by
  induction y with
  | nil => simp [maxAbs_nil]
  | cons a l ih =>
    rw [List.map_cons, maxAbs_cons, maxAbs_cons, ih, abs_div, abs_of_pos hm,
      max_div_div_right hm.le]

theorem maxAbs_eq_zero {α : Type} [LinearOrderedField α] (y : List α)
    (hz : ∀ v ∈ y, v = 0) : maxAbs y = 0 := by
  induction y with
  | nil => rfl
  | cons a l ih =>
    rw [maxAbs_cons, hz a (List.mem_cons_self a l), abs_zero,
      ih fun v hv => hz v (List.mem_cons_of_mem a hv)]
    simp

theorem getD_zero_of_all_zero {α : Type} [LinearOrderedField α] (x : List α)
    (hx : ∀ v ∈ x, v = 0) (j : ℕ) : x.getD j 0 = 0 := by
  rcases lt_or_ge j x.length with hj | hj
  · rw [List.getD_eq_getElem?_getD, List.getElem?_eq_getElem hj]
    exact hx _ (List.getElem_mem hj)
  · exact List.getD_eq_default _ _ hj

theorem convolve_all_zero {α : Type} [LinearOrderedField α] (x h : List α)
    (hx : ∀ v ∈ x, v = 0) : ∀ v ∈ convolve x h, v = 0 := by
  intro v hv
  rw [convolve] at hv
  obtain ⟨n, _, rfl⟩ := List.mem_map.mp hv
  apply List.sum_eq_zero
  intro t ht
  obtain ⟨k, _, rfl⟩ := List.mem_map.mp ht
  rw [getD_zero_of_all_zero x hx (n - k), mul_zero]

/-- C2: for sequences x, h whose full convolution is not identically zero,
`convolve_and_normalize` returns the full convolution divided by its maximum absolute
value: the result has length len x + len h − 1, every element is the finite quotient
y[n] / max |y|, and the maximum absolute value of the result is exactly 1. -/
theorem c2_convolve_and_normalize {α : Type} [LinearOrderedField α] (x h : List α)
    (hne : ∃ v ∈ convolve x h, v ≠ 0) :
    (convolve_and_normalize x h).length = x.length + h.length - 1
    ∧ convolve_and_normalize x h
        = (convolve x h).map (fun v => some (v / maxAbs (convolve x h)))
    ∧ maxAbs ((convolve x h).map (fun v => v / maxAbs (convolve x h))) = 1 := by
  have hm : 0 < maxAbs (convolve x h) := maxAbs_pos _ hne
  refine ⟨?_, ?_, ?_⟩
  · rw [convolve_and_normalize]
    simp only [List.length_map]
    exact convolve_length x h
  · rw [convolve_and_normalize]
    simp only [npDiv, if_neg hm.ne.symm]
  · rw [maxAbs_map_div _ _ hm, div_self hm.ne.symm]

/-- Witness for C2 at x = [1], h = [1] over ℚ. -/
theorem c2_convolve_and_normalize_witness :
    (∃ v ∈ convolve ([1] : List ℚ) [1], v ≠ 0)
    ∧ ((convolve_and_normalize ([1] : List ℚ) [1]).length = [1].length + [1].length - 1
      ∧ convolve_and_normalize ([1] : List ℚ) [1]
          = (convolve ([1] : List ℚ) [1]).map
              (fun v => some (v / maxAbs (convolve ([1] : List ℚ) [1])))
      ∧ maxAbs ((convolve ([1] : List ℚ) [1]).map
          (fun v => v / maxAbs (convolve ([1] : List ℚ) [1]))) = 1) :=
  ⟨⟨1, by norm_num [convolve, List.range_succ], one_ne_zero⟩,
    c2_convolve_and_normalize ([1] : List ℚ) [1]
      ⟨1, by norm_num [convolve, List.range_succ], one_ne_zero⟩⟩

/-- C4 counterexample: at the all-zero signal x = [0, 0] with h = [1] the code divides
the all-zero convolution by max |y| = 0; every element of the result is the non-finite
float NaN (modelled as `none`), not zero, so the returned sequence is not all-zero. -/
theorem c4_counterexample :
    convolve_and_normalize ([0, 0] : List ℚ) [1] = [none, none]
    ∧ convolve_and_normalize ([0, 0] : List ℚ) [1] ≠ [some 0, some 0] := by
  have hval : convolve_and_normalize ([0, 0] : List ℚ) [1] = [none, none] := by
    norm_num [convolve_and_normalize, convolve, maxAbs, npDiv, List.range_succ]
  refine ⟨hval, ?_⟩
  rw [hval]
  decide

/-- C4 amended: for an all-zero nonempty signal x and a nonempty response h (the
library raises ValueError on empty convolution inputs, so those calls never reach the
normalization), the convolution is all zeros, the normalization divides by
max |y| = 0 anyway, and every element of the returned sequence (of length
len x + len h − 1) is a non-finite NaN value (`none`); no exception is raised, but the
result is not an all-zero sequence. -/
theorem c4_all_zero_nan {α : Type} [LinearOrderedField α] (x h : List α)
    (hx : ∀ v ∈ x, v = 0) (_hxne : x ≠ []) (_hhne : h ≠ []) :
    convolve_and_normalize x h = List.replicate (x.length + h.length - 1) none := by
  have hz : ∀ v ∈ convolve x h, v = 0 := convolve_all_zero x h hx
  have hm : maxAbs (convolve x h) = 0 := maxAbs_eq_zero _ hz
  rw [convolve_and_normalize]
  simp only [npDiv, hm, eq_self_iff_true, if_true]
  rw [List.map_const', convolve_length x h]

/-- Witness for the amended C4 at x = [0, 0], h = [1] over ℚ. -/
theorem c4_all_zero_nan_witness :
    (∀ v ∈ ([0, 0] : List ℚ), v = 0)
    ∧ ([0, 0] : List ℚ) ≠ []
    ∧ ([1] : List ℚ) ≠ []
    ∧ convolve_and_normalize ([0, 0] : List ℚ) [1]
        = List.replicate ([0, 0].length + [1].length - 1) none :=
  ⟨by simp, by simp, by simp,
    c4_all_zero_nan ([0, 0] : List ℚ) [1] (by simp) (by simp) (by simp)⟩

/-! ### Claims about the RC impulse response -/

theorem rc_impulse_response_ok (τ t0 : ℝ) (rest : List ℝ) (hτ : τ ≠ 0) (ht0 : 0 ≤ t0) :
    rc_impulse_response τ (t0 :: rest)
      = some (t0 :: rest, (t0 :: rest).map (fun t => (1 / τ) * Real.exp (-t / τ))) := by
  rw [rc_impulse_response, if_neg hτ, if_neg (by simp), List.headD_cons,
    if_neg (not_lt.mpr ht0)]

theorem rc_impulse_response_empty (τ : ℝ) : rc_impulse_response τ [] = none := by
  rw [rc_impulse_response]
  by_cases h : τ = 0
  · rw [if_pos h]
  · rw [if_neg h, if_pos (by simp : ([] : List ℝ).isEmpty = true)]

/-- C5: for every positive τ and every ascending grid of non-negative reals, the
amplitude sequence returned by `rc_impulse_response` (whenever the call returns one:
the library raises on an empty grid) is monotonically non-increasing at consecutive
grid points. -/
theorem c5_impulse_response_antitone (τ : ℝ) (grid : List ℝ) (hτ : 0 < τ)
    (hasc : grid.Chain' (· ≤ ·)) (hpos : ∀ t ∈ grid, 0 ≤ t) :
    ∀ times amps, rc_impulse_response τ grid = some (times, amps) →
      amps.Chain' (fun a b => b ≤ a) := by
  intro times amps hok
  cases grid with
  | nil =>
    rw [rc_impulse_response_empty] at hok
    exact absurd hok (by simp)
  | cons t0 rest =>
    have ht0 : 0 ≤ t0 := hpos t0 (List.mem_cons_self t0 rest)
    rw [rc_impulse_response_ok τ t0 rest hτ.ne' ht0, Option.some.injEq,
      Prod.mk.injEq] at hok
    rw [← hok.2]
    refine List.chain'_map_of_chain' (fun t => (1 / τ) * Real.exp (-t / τ)) ?_ hasc
    intro a b hab
    have h1 : Real.exp (-b / τ) ≤ Real.exp (-a / τ) :=
      Real.exp_le_exp.mpr ((div_le_div_iff_of_pos_right hτ).mpr (neg_le_neg hab))
    exact mul_le_mul_of_nonneg_left h1 (by positivity)

/-- Witness for C5 at τ = 1, grid = [0, 1, 2]. -/
theorem c5_impulse_response_antitone_witness :
    (0 : ℝ) < 1
    ∧ List.Chain' (· ≤ ·) ([0, 1, 2] : List ℝ)
    ∧ (∀ t ∈ ([0, 1, 2] : List ℝ), 0 ≤ t)
    ∧ ∀ times amps, rc_impulse_response 1 [0, 1, 2] = some (times, amps) →
        amps.Chain' (fun a b => b ≤ a) :=
  ⟨by norm_num, by norm_num [List.chain'_cons], by norm_num,
    c5_impulse_response_antitone 1 [0, 1, 2] (by norm_num)
      (by norm_num [List.chain'_cons]) (by norm_num)⟩

/-- C7 counterexample: at bit_length = 0 the source returns an empty sequence with no
error at all (numpy returns an empty array for size 0), so the call does not fail with
InvalidParameter and a sequence is produced. -/
theorem c7_counterexample : generate_bits (fun _ => 0) 0 = Except.ok [] := rfl

/-- C7 amended: the source performs no InvalidParameter validation. For every
non-positive bit_length, `generate_bits` returns an empty sequence when bit_length = 0
and fails with numpy's ValueError (not InvalidParameter) when bit_length < 0. -/
theorem c7_no_validation (rnd : ℕ → ℕ) (bit_length : ℤ) (h : bit_length ≤ 0) :
    generate_bits rnd bit_length
      = if bit_length < 0
          then Except.error "ValueError: negative dimensions are not allowed"
          else Except.ok [] := by
  rw [generate_bits]
  by_cases hn : bit_length < 0
  · rw [if_pos hn, if_pos hn]
  · rw [if_neg hn, if_neg hn]
    have h0 : bit_length = 0 := le_antisymm h (not_lt.mp hn)
    subst h0
    rfl

/-- Witness for the amended C7 at bit_length = 0. -/
theorem c7_no_validation_witness :
    (0 : ℤ) ≤ 0
    ∧ generate_bits (fun _ => 0) 0
        = if (0 : ℤ) < 0
            then Except.error "ValueError: negative dimensions are not allowed"
            else Except.ok [] :=
  ⟨by decide, c7_no_validation (fun _ => 0) 0 (by decide)⟩

/-- C8: for every positive bit_length, `generate_bits` returns a sequence of exactly
bit_length elements, each of which is 0 or 1. -/
theorem c8_generate_bits (rnd : ℕ → ℕ) (bit_length : ℤ) (h : 0 < bit_length) :
    ∃ l, generate_bits rnd bit_length = Except.ok l
      ∧ (l.length : ℤ) = bit_length
      ∧ ∀ b ∈ l, b = 0 ∨ b = 1 := by
  refine ⟨(List.range bit_length.toNat).map (fun i => rnd i % 2), ?_, ?_, ?_⟩
  · rw [generate_bits, if_neg (by omega)]
  · simp [Int.toNat_of_nonneg h.le]
  · intro b hb
    obtain ⟨i, _, rfl⟩ := List.mem_map.mp hb
    omega

/-- Witness for C8 at rnd = id, bit_length = 3. -/
theorem c8_generate_bits_witness :
    (0 : ℤ) < 3
    ∧ ∃ l, generate_bits (fun i => i) 3 = Except.ok l
        ∧ (l.length : ℤ) = 3
        ∧ ∀ b ∈ l, b = 0 ∨ b = 1 :=
  ⟨by decide, c8_generate_bits (fun i => i) 3 (by decide)⟩

theorem getD_map_range {α : Type} (f : ℕ → α) (n i : ℕ) (d : α) (h : i < n) :
    ((List.range n).map f).getD i d = f i := by
  rw [List.getD_eq_getElem?_getD, List.getElem?_map, List.getElem?_range h]
  rfl

theorem time_eq (N S : ℕ) (hS : 0 < S) :
    time N S = (List.range (N * S)).map (fun i : ℕ => (i : ℚ) / S) := by
  unfold time arange
  have hS0 : (S : ℚ) ≠ 0 := Nat.cast_ne_zero.mpr hS.ne'
  have h1 : ((N : ℚ) - 0) / (1 / S) = ((N * S : ℕ) : ℚ) := by
    push_cast
    field_simp
  rw [h1, Int.ceil_natCast, Int.toNat_natCast]
  refine List.map_congr_left fun i _ => ?_
  rw [zero_add, mul_one_div]

/-- C9: for positive bit_length N and samples_per_bit S, the time grid has length
exactly N·S, starts at 0, has value i/S at index i, is uniformly spaced with step 1/S,
and every element lies in the interval from 0 inclusive to N exclusive. -/
theorem c9_time_grid (N S : ℕ) (hN : 0 < N) (hS : 0 < S) :
    (time N S).length = N * S
    ∧ (time N S).getD 0 0 = 0
    ∧ (∀ i, i < N * S → (time N S).getD i 0 = (i : ℚ) / S)
    ∧ (∀ i, i + 1 < N * S →
        (time N S).getD (i + 1) 0 - (time N S).getD i 0 = 1 / S)
    ∧ (∀ t ∈ time N S, 0 ≤ t ∧ t < N) := by
  have he := time_eq N S hS
  refine ⟨?_, ?_, ?_, ?_, ?_⟩
  · rw [he]; simp
  · rw [he, getD_map_range _ _ _ _ (Nat.mul_pos hN hS)]
    simp
  · intro i hi
    rw [he, getD_map_range _ _ _ _ hi]
  · intro i hi
    rw [he, getD_map_range _ _ _ _ hi, getD_map_range _ _ _ _ (by omega)]
    rw [div_sub_div_same]
    push_cast
    norm_num
  · intro t ht
    rw [he] at ht
    obtain ⟨i, hi, rfl⟩ := List.mem_map.mp ht
    have hiN : i < N * S := List.mem_range.mp hi
    refine ⟨by positivity, ?_⟩
    rw [div_lt_iff₀ (by exact_mod_cast hS : (0 : ℚ) < S)]
    have hcast : (i : ℚ) < ((N * S : ℕ) : ℚ) := by exact_mod_cast hiN
    push_cast at hcast
    linarith

/-- Witness for C9 at N = 2, S = 2. -/
theorem c9_time_grid_witness :
    0 < 2 ∧ 0 < 2
    ∧ ((time 2 2).length = 2 * 2
      ∧ (time 2 2).getD 0 0 = 0
      ∧ (∀ i, i < 2 * 2 → (time 2 2).getD i 0 = (i : ℚ) / 2)
      ∧ (∀ i, i + 1 < 2 * 2 → (time 2 2).getD (i + 1) 0 - (time 2 2).getD i 0 = 1 / 2)
      ∧ (∀ t ∈ time 2 2, 0 ≤ t ∧ t < 2)) :=
  ⟨by decide, by decide, c9_time_grid 2 2 (by decide) (by decide)⟩

end LowPass
